import Mathlib

/-!
Verification of the AInalogy embedding engine (`src/embeddings.js`, the
variant shipped in the repository with pre-normalized embeddings, together
with its older sibling `src/src/embeddings.js`).

The development has two layers, both translated from the JavaScript source:

* a codec / load-time layer, modelled at the bit level: the raw
  `ArrayBuffer` is a list of bytes, a decoded `Float32Array` is a list of
  32-bit bit patterns (`Nat`), and the IEEE-754 binary32 reading of a bit
  pattern is an exact rational (`f32Val`).  This layer backs the claims
  about `bf16ToFloat32`, the byte-length behaviour of the float32 path of
  `_doLoadEmbeddings`, and the `vocab` / `reverseVocab` round trip.

* a query layer (`Engine`), modelling the `EmbeddingEngine` class state and
  the methods `cleanToken`, `generateTokenVariants`, `findBestTokenMatch`,
  `getEmbedding`, `performAnalogy` and `getTokensWithPrefix`.  Vector
  components are modelled as exact real numbers (the exact-arithmetic
  idealization of IEEE float arithmetic); thrown JS exceptions are modelled
  as `Except.error`.  JavaScript objects and `Map`s are modelled as
  insertion-ordered association lists (string keys, first-set order kept on
  update, as ES2015 specifies); `Array.prototype.sort` (stable per ES2019)
  is modelled by the stable `List.insertionSort`;
  `String.prototype.localeCompare` is modelled as code-point comparison
  (adequate for the ASCII/`▁` tokens exercised here).

The load lifecycle of `loadEmbeddings` (promise caching) is modelled as a
state machine over the `isLoaded` / `loadingPromise` fields, with one
transition per suspension-free segment of the JS code.
-/

/-! ### JavaScript string primitives

`toLowerCase` / `toUpperCase` are modelled characterwise (exact for the
ASCII tokens and the boundary marker `▁`, which no case map touches). -/

/-- Model of `String.prototype.toLowerCase` (characterwise, ASCII-accurate). -/
def jsToLower (s : String) : String := String.mk (s.data.map Char.toLower)

/-- Model of `String.prototype.toUpperCase` (characterwise, ASCII-accurate). -/
def jsToUpper (s : String) : String := String.mk (s.data.map Char.toUpper)

/-- Model of `String.prototype.startsWith` (code-unit prefix test). -/
def jsStartsWith (s pre : String) : Bool := pre.data.isPrefixOf s.data

/-- Code-point comparison of character lists (the model of
`localeCompare(...) <= 0` for the ASCII tokens exercised here). -/
def charListLE : List Char → List Char → Bool
  | [], _ => true
  | _ :: _, [] => false
  | c :: cs, d :: ds =>
      if c.toNat < d.toNat then true
      else if d.toNat < c.toNat then false
      else charListLE cs ds

/-- Code-point string comparison. -/
def stringLE (a b : String) : Bool := charListLE a.data b.data

/-- Model of `s.charAt(0).toUpperCase() + s.slice(1).toLowerCase()` from
`generateTokenVariants`; on the empty string both halves are empty. -/
def jsCapitalize (s : String) : String :=
  match s.data with
  | [] => ""
  | c :: cs => String.mk (c.toUpper :: cs.map Char.toLower)

/-- Remove the first occurrence of the pattern `pat` from `s`: the behaviour
of JavaScript `s.replace(pat, "")` when `pat` is a plain string.  An empty
pattern leaves the string unchanged, as in JS. -/
def removeFirstSub (pat : List Char) : List Char → List Char
  | [] => []
  | c :: rest =>
    if pat ≠ [] ∧ pat.isPrefixOf (c :: rest) then (c :: rest).drop pat.length
    else c :: removeFirstSub pat rest

/-- Model of `token.replace(spaceString, "")` (first occurrence only). -/
def jsReplaceOnce (s pat : String) : String :=
  String.mk (removeFirstSub pat.data s.data)

/-! ### JavaScript `Set` and `Map` as insertion-ordered lists -/

/-- Adding one element to a JS `Set`: kept in first-insertion order. -/
def jsSetAdd (l : List String) (s : String) : List String :=
  if s ∈ l then l else l ++ [s]

/-- A JS `Set` built by inserting the elements of `l` in order. -/
def jsSetOfList (l : List String) : List String := l.foldl jsSetAdd []

/-- `m.get(k)` on a JS `Map` modelled as an association list. -/
def jsMapGet (m : List (String × α)) (k : String) : Option α :=
  (m.find? (fun p => p.1 == k)).map (·.2)

/-- `m.set(k, v)` on a JS `Map`: an existing key keeps its insertion
position and gets the new value; a new key goes to the end. -/
def jsMapSet (m : List (String × α)) (k : String) (v : α) : List (String × α) :=
  if (m.find? (fun p => p.1 == k)).isSome then
    m.map (fun p => if p.1 == k then (k, v) else p)
  else m ++ [(k, v)]

/-! ### The binary vector codec (`bf16ToFloat32` and the load-time decode)

`Float32Array` contents are modelled as their 32-bit bit patterns. -/

/-- One little-endian 32-bit word from four bytes. -/
def word32 (b0 b1 b2 b3 : Nat) : Nat := b0 + b1 * 2 ^ 8 + b2 * 2 ^ 16 + b3 * 2 ^ 24

/-- One little-endian 16-bit word from two bytes. -/
def word16 (b0 b1 : Nat) : Nat := b0 + b1 * 2 ^ 8

/-- The elements of `new Float32Array(buffer)` as bit patterns (the
constructor itself rejects buffers whose length is not a multiple of 4;
that check lives in `doLoadEmbeddingsCore`). -/
def bytesToWords32 : List Nat → List Nat
  | b0 :: b1 :: b2 :: b3 :: rest => word32 b0 b1 b2 b3 :: bytesToWords32 rest
  | _ => []

/-- The elements of `new Uint16Array(buffer)`. -/
def bytesToWords16 : List Nat → List Nat
  | b0 :: b1 :: rest => word16 b0 b1 :: bytesToWords16 rest
  | _ => []

/-- `bf16ToFloat32` from `src/embeddings.js`: each 16-bit value is shifted
left by 16 (`uint32[i] = bf16Uint16[i] << 16`, stored into a `Uint32Array`,
hence reduced mod `2^32`) and the result is reinterpreted as float32.  On a
`Uint16Array` element `v < 2^16` the stored word is exactly `v * 2^16`. -/
def bf16ToFloat32 (l : List Nat) : List Nat :=
  l.map (fun v => v % 2 ^ 16 * 2 ^ 16)

/-- The exact rational value of an IEEE-754 binary32 bit pattern; `none` for
an infinity or NaN (exponent field 255). -/
def f32Val (b : Nat) : Option ℚ :=
  let e := b / 2 ^ 23 % 2 ^ 8
  let f := b % 2 ^ 23
  if e = 255 then none
  else
    let sign : ℚ := if b / 2 ^ 31 % 2 = 1 then -1 else 1
    let sig : ℕ := if e = 0 then f else 2 ^ 23 + f
    let ebias : ℕ := if e = 0 then 1 else e
    some (if 150 ≤ ebias then sign * sig * ((2 ^ (ebias - 150) : ℕ) : ℚ)
          else sign * sig / ((2 ^ (150 - ebias) : ℕ) : ℚ))

/-! ### Metadata and the pure core of `_doLoadEmbeddings` -/

/-- The parsed `metadata.json` document.  `vocab` is the token → id object,
kept in insertion order. -/
structure Metadata where
  vocab : List (String × Nat)
  vocab_size : Nat
  embedding_dim : Nat
  dtype : String
  space_string : String
deriving DecidableEq, Repr

/-- `this.vocab[token]`: property lookup on the (duplicate-free) vocab
object. -/
def lookupVocab (v : List (String × Nat)) (t : String) : Option Nat :=
  (v.find? (fun p => p.1 == t)).map (·.2)

/-- The entry list handed to `Object.fromEntries` when `reverseVocab` is
built: `Object.entries(this.vocab).map(([token, id]) => [id, token])`. -/
def buildReverseVocab (v : List (String × Nat)) : List (Nat × String) :=
  v.map (fun p => (p.2, p.1))

/-- Property lookup on the object `Object.fromEntries(l)` builds: a key that
occurs several times in `l` is silently overwritten, so the LAST entry with
that key wins. -/
def fromEntriesLookup (l : List (Nat × String)) (k : Nat) : Option String :=
  (l.reverse.find? (fun p => p.1 == k)).map (·.2)

/-- `typedData.slice(start, stop)`: JavaScript `TypedArray.slice` clamps the
range to the available data instead of failing. -/
def sliceClamp (l : List α) (start stop : Nat) : List α :=
  (l.drop start).take (stop - start)

/-- The store the load pass leaves behind (bit-pattern layer). -/
structure LoadedStore where
  vocab : List (String × Nat)
  reverseVocab : List (Nat × String)
  embeddings : List (List Nat)
deriving DecidableEq, Repr

/-- The pure core of `_doLoadEmbeddings` (both variants), after the two
fetches: build `reverseVocab` from the parsed metadata, view the binary
buffer as float32 bit patterns (via `bf16ToFloat32` when
`dtype === "bf16"`), and reshape into `vocab_size` rows of
`embedding_dim` by clamped slicing.  The only failing steps are the typed
array constructors (`RangeError` when the byte length is not a multiple of
the element width); no byte-length-vs-shape or duplicate-id validation is
performed anywhere.  The part_001 variant additionally pre-normalizes each
row (float arithmetic, modelled on the `Engine` layer). -/
def doLoadEmbeddingsCore (md : Metadata) (buffer : List Nat) :
    Except String LoadedStore := do
  let reverseVocab := buildReverseVocab md.vocab
  let typedData ←
    if md.dtype = "bf16" then
      if buffer.length % 2 ≠ 0 then .error "RangeError"
      else .ok (bf16ToFloat32 (bytesToWords16 buffer))
    else
      if buffer.length % 4 ≠ 0 then .error "RangeError"
      else .ok (bytesToWords32 buffer)
  let embeddings := (List.range md.vocab_size).map (fun i =>
    sliceClamp typedData (i * md.embedding_dim) (i * md.embedding_dim + md.embedding_dim))
  .ok { vocab := md.vocab, reverseVocab := reverseVocab, embeddings := embeddings }

/-! ### Codec-layer lemmas -/

theorem bytesToWords32_length : (l : List Nat) → (bytesToWords32 l).length = l.length / 4
  | [] => by simp [bytesToWords32]
  | [_] => by simp [bytesToWords32]
  | [_, _] => by simp [bytesToWords32]
  | [_, _, _] => by simp [bytesToWords32]
  | _ :: _ :: _ :: _ :: rest => by
      simp only [bytesToWords32, List.length_cons, bytesToWords32_length rest]
      omega

theorem sliceClamp_length (l : List α) (start stop : Nat) :
    (sliceClamp l start stop).length = min (stop - start) (l.length - start) := by
  simp [sliceClamp]

/-- Concatenating the `n` clamped slices of width `d` of a list of length
exactly `n * d` reproduces the list. -/
theorem flatten_sliceClamp (d : Nat) :
    ∀ (n : Nat) (l : List α), l.length = n * d →
      ((List.range n).map (fun i => sliceClamp l (i * d) (i * d + d))).flatten = l := by
  intro n
  induction n with
  | zero =>
      intro l hl
      simp only [Nat.zero_mul, List.length_eq_zero] at hl
      simp [hl]
  | succ n ih =>
      intro l hl
      rw [List.range_succ_eq_map]
      have hshift : ∀ i : Nat,
          sliceClamp l (Nat.succ i * d) (Nat.succ i * d + d)
            = sliceClamp (l.drop d) (i * d) (i * d + d) := by
        intro i
        simp only [sliceClamp, List.drop_drop]
        have h1 : d + i * d = Nat.succ i * d := by rw [Nat.succ_mul]; omega
        have h2 : Nat.succ i * d + d - Nat.succ i * d = d := by omega
        have h3 : i * d + d - (i * d) = d := by omega
        rw [h1, h2, h3]
      have hdrop : (l.drop d).length = n * d := by
        rw [List.length_drop, hl]
        have h4 : (n + 1) * d = n * d + d := by ring
        omega
      simp only [List.map_cons, List.map_map, List.flatten_cons]
      have hmap : (List.map ((fun i => sliceClamp l (i * d) (i * d + d)) ∘ Nat.succ)
          (List.range n)) = List.map (fun i => sliceClamp (l.drop d) (i * d) (i * d + d))
          (List.range n) := by
        apply List.map_congr_left
        intro i _
        exact hshift i
      rw [hmap, ih (l.drop d) hdrop]
      have hzero : sliceClamp l (0 * d) (0 * d + d) = l.take d := by
        simp [sliceClamp]
      rw [hzero, List.take_append_drop]

/-- If two entries of an association list share their second component and
the second components are pairwise distinct, the entries coincide. -/
theorem mem_unique_by_snd {l : List (α × β)} {a a' : α} {b : β}
    (h : (l.map Prod.snd).Pairwise (· ≠ ·))
    (h1 : (a, b) ∈ l) (h2 : (a', b) ∈ l) : a = a' := by
  induction l with
  | nil => cases h1
  | cons p rest ih =>
      obtain ⟨x, y⟩ := p
      rw [List.map_cons, List.pairwise_cons] at h
      rcases List.mem_cons.mp h1 with h1 | h1 <;>
        rcases List.mem_cons.mp h2 with h2 | h2
      · rw [Prod.mk.injEq] at h1 h2
        rw [h1.1, h2.1]
      · rw [Prod.mk.injEq] at h1
        exact absurd h1.2.symm (h.1 b (List.mem_map_of_mem Prod.snd h2))
      · rw [Prod.mk.injEq] at h2
        exact absurd h2.2.symm (h.1 b (List.mem_map_of_mem Prod.snd h1))
      · exact ih h.2 h1 h2

/-- With pairwise-distinct first components, property lookup on the vocab
object finds the member entry. -/
theorem lookupVocab_eq_of_mem {v : List (String × Nat)} {t : String} {i : Nat}
    (htoks : (v.map Prod.fst).Pairwise (· ≠ ·)) (hmem : (t, i) ∈ v) :
    lookupVocab v t = some i := by
  induction v with
  | nil => cases hmem
  | cons p rest ih =>
      obtain ⟨x, y⟩ := p
      rw [List.map_cons, List.pairwise_cons] at htoks
      rcases List.mem_cons.mp hmem with hmem | hmem
      · rw [Prod.mk.injEq] at hmem
        simp [lookupVocab, hmem.1, hmem.2]
      · have hne : x ≠ t := htoks.1 t (List.mem_map_of_mem Prod.fst hmem)
        have hb : (x == t) = false := beq_eq_false_iff_ne.mpr hne
        have ih' := ih htoks.2 hmem
        simp only [lookupVocab, List.find?_cons] at ih' ⊢
        simp only [hb]
        exact ih'

/-- With pairwise-distinct ids, the `fromEntries`-style reverse lookup
returns the (unique) token of an id. -/
theorem fromEntries_of_unique_ids {v : List (String × Nat)} {t : String} {i : Nat}
    (hids : (v.map Prod.snd).Pairwise (· ≠ ·)) (hmem : (t, i) ∈ v) :
    fromEntriesLookup (buildReverseVocab v) i = some t := by
  have hmem' : (i, t) ∈ (buildReverseVocab v).reverse := by
    rw [List.mem_reverse]
    simp only [buildReverseVocab, List.mem_map]
    exact ⟨(t, i), hmem, rfl⟩
  have hsome : ((buildReverseVocab v).reverse.find? (fun p => p.1 == i)).isSome := by
    rw [List.find?_isSome]
    exact ⟨(i, t), hmem', by simp⟩
  obtain ⟨q, hq⟩ := Option.isSome_iff_exists.mp hsome
  have hqmem := List.mem_of_find?_eq_some hq
  have hqp := List.find?_some hq
  rw [List.mem_reverse] at hqmem
  simp only [buildReverseVocab, List.mem_map] at hqmem
  obtain ⟨⟨t', i'⟩, hmem2, hswap⟩ := hqmem
  have hq1 : q.1 = i := by simpa using hqp
  have hi' : i' = i := by
    have : (i', t') = q := hswap
    rw [← this] at hq1
    exact hq1
  rw [hi'] at hmem2
  have ht' : t' = t := mem_unique_by_snd hids hmem2 hmem
  have hqval : q = (i, t) := by
    rw [← hswap, hi', ht']
  simp [fromEntriesLookup, hq, hqval]

/-- Concrete metadata with a duplicate id (two tokens share id 0). -/
def mdDup : Metadata := ⟨[("a", 0), ("b", 0)], 2, 1, "float32", "▁"⟩

/-- Concrete metadata whose expected float32 payload is 16 bytes. -/
def mdMismatch : Metadata := ⟨[("a", 0), ("b", 1)], 2, 2, "float32", "▁"⟩

/-- Concrete metadata whose expected float32 payload is exactly 8 bytes. -/
def mdExact : Metadata := ⟨[("a", 0), ("b", 1)], 2, 1, "float32", "▁"⟩

/-- An 8-byte buffer: the float32 values 1.0 and 2.0, little-endian. -/
def buf8 : List Nat := [0, 0, 128, 63, 0, 0, 0, 64]

/-- C9: `bf16ToFloat32` returns an array of the same length whose element
`i` is the float32 bit pattern obtained by shifting the 16-bit input left
by 16 (low 16 bits zero); concretely `0x3F80` decodes exactly to `1.0`,
`0x0000` to `0.0`, and the sign-bit pattern `0xBF80` to `-1.0` (`f32Val`
is the exact IEEE-754 binary32 value of a bit pattern). -/
theorem bf16_decodes_shift16 :
    (∀ l : List Nat, (bf16ToFloat32 l).length = l.length ∧
      ∀ i : Nat, (bf16ToFloat32 l)[i]? = l[i]?.map (fun v => v % 2 ^ 16 * 2 ^ 16)) ∧
    bf16ToFloat32 [0x3F80, 0x0000, 0xBF80] = [0x3F800000, 0x00000000, 0xBF800000] ∧
    f32Val 0x3F800000 = some 1 ∧ f32Val 0x00000000 = some 0 ∧
    f32Val 0xBF800000 = some (-1) := by
  refine ⟨fun l => ⟨by simp [bf16ToFloat32], fun i => ?_⟩, by decide, ?_, ?_, ?_⟩
  · simp [bf16ToFloat32]
  · norm_num [f32Val]
  · norm_num [f32Val]
  · norm_num [f32Val]

/-- C4 counterexample: with `vocab_size = 2`, `embedding_dim = 2` the
float32 payload should be 16 bytes, yet an 8-byte buffer decodes without
any error: the load completes and silently yields rows of lengths 2 and 0
instead of failing with a `FormatError`. -/
theorem float32_wrong_length_still_decodes :
    (doLoadEmbeddingsCore mdMismatch buf8).toOption.map
        (fun st => st.embeddings.map List.length) = some [2, 0] ∧
    buf8.length ≠ mdMismatch.vocab_size * mdMismatch.embedding_dim * 4 := by
  constructor
  · decide
  · decide

/-- C4 amended: the float32 decode path validates only what the
`Float32Array` constructor checks (byte length divisible by 4); it never
compares the byte length against `vocab_size * embedding_dim * 4`.  Any
4-divisible buffer loads successfully into `vocab_size` clamped rows, and
exactly when the byte length matches the expected size the rows are
`vocab_size` contiguous row-major vectors of `embedding_dim` floats (their
concatenation is the decoded stream). -/
theorem float32_decode_reshape (md : Metadata) (buffer : List Nat)
    (hdt : md.dtype = "float32") (h4 : buffer.length % 4 = 0) :
    ∃ st, doLoadEmbeddingsCore md buffer = .ok st ∧
      st.embeddings.length = md.vocab_size ∧
      (buffer.length = md.vocab_size * md.embedding_dim * 4 →
        st.embeddings.Forall (fun r => r.length = md.embedding_dim) ∧
        st.embeddings.flatten = bytesToWords32 buffer) := by
  have hbf : ¬ md.dtype = "bf16" := by rw [hdt]; decide
  have heq : doLoadEmbeddingsCore md buffer = .ok
      { vocab := md.vocab, reverseVocab := buildReverseVocab md.vocab,
        embeddings := (List.range md.vocab_size).map (fun i =>
          sliceClamp (bytesToWords32 buffer) (i * md.embedding_dim)
            (i * md.embedding_dim + md.embedding_dim)) } := by
    simp only [doLoadEmbeddingsCore, if_neg hbf, if_neg (by omega : ¬ buffer.length % 4 ≠ 0)]
    rfl
  refine ⟨_, heq, ?_, ?_⟩
  · simp
  · intro hlen
    have hw : (bytesToWords32 buffer).length = md.vocab_size * md.embedding_dim := by
      rw [bytesToWords32_length]
      have h1 : buffer.length = md.vocab_size * md.embedding_dim * 4 := hlen
      omega
    constructor
    · rw [List.forall_iff_forall_mem]
      intro r hr
      simp only [List.mem_map, List.mem_range] at hr
      obtain ⟨i, hi, hrow⟩ := hr
      rw [← hrow, sliceClamp_length, hw]
      have hle : (i + 1) * md.embedding_dim ≤ md.vocab_size * md.embedding_dim :=
        Nat.mul_le_mul_right _ (by omega)
      have heq : (i + 1) * md.embedding_dim = i * md.embedding_dim + md.embedding_dim := by
        ring
      omega
    · exact flatten_sliceClamp md.embedding_dim md.vocab_size (bytesToWords32 buffer) hw

/-- Witness for `float32_decode_reshape` at `mdExact` and the 8-byte
buffer (2 vectors of dimension 1). -/
theorem float32_decode_reshape_witness :
    mdExact.dtype = "float32" ∧ buf8.length % 4 = 0 ∧
    ∃ st, doLoadEmbeddingsCore mdExact buf8 = .ok st ∧
      st.embeddings.length = mdExact.vocab_size ∧
      (buf8.length = mdExact.vocab_size * mdExact.embedding_dim * 4 →
        st.embeddings.Forall (fun r => r.length = mdExact.embedding_dim) ∧
        st.embeddings.flatten = bytesToWords32 buf8) :=
  ⟨rfl, by decide, float32_decode_reshape mdExact buf8 rfl (by decide)⟩

/-- C3 counterexample: metadata assigning id 0 to both "a" and "b" loads
without any error (no `FormatError`): the reverse mapping is silently built
by overwriting, so id 0 maps to the later token "b". -/
theorem duplicate_id_load_succeeds :
    mdDup.vocab = [("a", 0), ("b", 0)] ∧
    (doLoadEmbeddingsCore mdDup buf8).toOption.isSome = true ∧
    (doLoadEmbeddingsCore mdDup buf8).toOption.map
        (fun st => fromEntriesLookup st.reverseVocab 0) = some (some "b") := by
  refine ⟨rfl, by decide, by decide⟩

/-- C3 amended: the load pass performs no duplicate-id validation.  Even
when several tokens share an id, the metadata phase completes (given a
decodable buffer) and `Object.fromEntries` silently overwrites: the reverse
mapping sends the shared id to the LAST token carrying it in the vocab's
iteration order. -/
theorem duplicate_id_last_wins (md : Metadata) (buffer : List Nat)
    (l₁ l₂ : List (String × Nat)) (t : String) (i : Nat)
    (hdt : md.dtype = "float32") (h4 : buffer.length % 4 = 0)
    (hsplit : md.vocab = l₁ ++ (t, i) :: l₂)
    (hlast : i ∉ l₂.map Prod.snd) :
    ∃ st, doLoadEmbeddingsCore md buffer = .ok st ∧
      fromEntriesLookup st.reverseVocab i = some t := by
  have hbf : ¬ md.dtype = "bf16" := by rw [hdt]; decide
  have heq : doLoadEmbeddingsCore md buffer = .ok
      { vocab := md.vocab, reverseVocab := buildReverseVocab md.vocab,
        embeddings := (List.range md.vocab_size).map (fun j =>
          sliceClamp (bytesToWords32 buffer) (j * md.embedding_dim)
            (j * md.embedding_dim + md.embedding_dim)) } := by
    simp only [doLoadEmbeddingsCore, if_neg hbf, if_neg (by omega : ¬ buffer.length % 4 ≠ 0)]
    rfl
  refine ⟨_, heq, ?_⟩
  simp only [fromEntriesLookup, buildReverseVocab, hsplit]
  rw [List.map_append, List.map_cons, List.reverse_append, List.reverse_cons]
  have hnone : ((List.map (fun p => (p.2, p.1)) l₂).reverse.find?
      (fun p => p.1 == i)) = none := by
    rw [List.find?_eq_none]
    intro q hq
    rw [List.mem_reverse, List.mem_map] at hq
    obtain ⟨⟨a, b⟩, hmem, hswap⟩ := hq
    have hb : q.1 = b := by rw [← hswap]
    simp only [beq_iff_eq, hb]
    intro hbi
    exact hlast (hbi ▸ List.mem_map_of_mem Prod.snd hmem)
  rw [List.find?_append, List.find?_append, hnone, Option.none_or,
    List.find?_cons_of_pos _ (by simp)]
  simp

/-- Witness for `duplicate_id_last_wins`: the concrete duplicate-id
metadata `mdDup`, split around its second entry `("b", 0)`. -/
theorem duplicate_id_last_wins_witness :
    mdDup.dtype = "float32" ∧ buf8.length % 4 = 0 ∧
    mdDup.vocab = [("a", 0)] ++ ("b", 0) :: [] ∧ (0 : Nat) ∉ ([] : List (String × Nat)).map Prod.snd ∧
    ∃ st, doLoadEmbeddingsCore mdDup buf8 = .ok st ∧
      fromEntriesLookup st.reverseVocab 0 = some "b" :=
  ⟨rfl, by decide, rfl, by decide,
    duplicate_id_last_wins mdDup buf8 [("a", 0)] [] "b" 0 rfl (by decide) rfl (by decide)⟩

/-- C10: after a successful load whose metadata assigns pairwise-distinct
ids (and, as JS object keys, pairwise-distinct tokens), reverse lookup
inverts forward lookup: for every vocabulary entry, looking the token up in
`vocab` and the resulting id up in `reverseVocab` returns the token. -/
theorem reverseVocab_inverts_vocab (md : Metadata) (buffer : List Nat) (st : LoadedStore)
    (t : String) (i : Nat)
    (hok : doLoadEmbeddingsCore md buffer = .ok st)
    (hids : (md.vocab.map Prod.snd).Pairwise (· ≠ ·))
    (htoks : (md.vocab.map Prod.fst).Pairwise (· ≠ ·))
    (hmem : (t, i) ∈ md.vocab) :
    lookupVocab st.vocab t = some i ∧ fromEntriesLookup st.reverseVocab i = some t := by
  have hfields : st.vocab = md.vocab ∧ st.reverseVocab = buildReverseVocab md.vocab := by
    unfold doLoadEmbeddingsCore at hok
    by_cases hbf : md.dtype = "bf16"
    · rw [if_pos hbf] at hok
      by_cases h2 : buffer.length % 2 ≠ 0
      · rw [if_pos h2] at hok
        cases hok
      · rw [if_neg h2] at hok
        cases hok
        exact ⟨rfl, rfl⟩
    · rw [if_neg hbf] at hok
      by_cases h4 : buffer.length % 4 ≠ 0
      · rw [if_pos h4] at hok
        cases hok
      · rw [if_neg h4] at hok
        cases hok
        exact ⟨rfl, rfl⟩
  rw [hfields.1, hfields.2]
  exact ⟨lookupVocab_eq_of_mem htoks hmem, fromEntries_of_unique_ids hids hmem⟩

/-- Witness for `reverseVocab_inverts_vocab` at the concrete two-token
metadata `mdExact` and the token "b" with id 1. -/
theorem reverseVocab_inverts_vocab_witness :
    (∃ st, doLoadEmbeddingsCore mdExact buf8 = .ok st ∧
      (mdExact.vocab.map Prod.snd).Pairwise (· ≠ ·) ∧
      (mdExact.vocab.map Prod.fst).Pairwise (· ≠ ·) ∧
      ("b", 1) ∈ mdExact.vocab ∧
      lookupVocab st.vocab "b" = some 1 ∧
      fromEntriesLookup st.reverseVocab 1 = some "b") := by
  have hok : doLoadEmbeddingsCore mdExact buf8 =
      .ok ⟨[("a", 0), ("b", 1)], [(0, "a"), (1, "b")],
        [[1065353216], [1073741824]]⟩ := by rfl
  have hids : (mdExact.vocab.map Prod.snd).Pairwise (· ≠ ·) := by decide
  have htoks : (mdExact.vocab.map Prod.fst).Pairwise (· ≠ ·) := by decide
  have hmem : ("b", 1) ∈ mdExact.vocab := by decide
  exact ⟨_, hok, hids, htoks, hmem,
    reverseVocab_inverts_vocab mdExact buf8 _ "b" 1 hok hids htoks hmem⟩

/-! ### The load lifecycle of `loadEmbeddings`

The runtime is single-threaded and cooperative: `loadEmbeddings` runs
synchronously up to its first `await`.  Its promise-caching logic is
modelled as a state machine over the fields it reads and writes
(`isLoaded`, `loadingPromise`), with `startedPasses` counting how many
`_doLoadEmbeddings()` passes were ever started — each pass fetches each
resource exactly once. -/

/-- The `loadEmbeddings`-relevant engine state.  The cached in-flight
promise is identified by the number of the pass that created it. -/
structure LoadState where
  isLoaded : Bool
  loadingPromise : Option Nat
  startedPasses : Nat
deriving DecidableEq, Repr

/-- What one `loadEmbeddings()` call observes: an immediate return (already
loaded), joining the cached in-flight promise, or starting a fresh pass. -/
inductive LoadCallOutcome where
  | immediate
  | joined (p : Nat)
  | started (p : Nat)
deriving DecidableEq, Repr

/-- The synchronous prefix of `loadEmbeddings()`: if `this.isLoaded`,
return immediately; else if `this.loadingPromise` is set, return that
promise; else call `_doLoadEmbeddings()` and cache its promise. -/
def loadCall (s : LoadState) : LoadState × LoadCallOutcome :=
  if s.isLoaded then (s, .immediate)
  else
    match s.loadingPromise with
    | some p => (s, .joined p)
    | none =>
        ({ isLoaded := s.isLoaded, loadingPromise := some s.startedPasses,
           startedPasses := s.startedPasses + 1 }, .started s.startedPasses)

/-- Settlement of the in-flight pass: `_doLoadEmbeddings` sets `isLoaded`
before resolving on success (and rethrows on failure), then the `finally`
of the caller that started the pass clears `this.loadingPromise` in both
cases. -/
def loadFinish (s : LoadState) (success : Bool) : LoadState :=
  { isLoaded := success || s.isLoaded, loadingPromise := none,
    startedPasses := s.startedPasses }

/-- C7: the load lifecycle.  (a) After a successful load every call returns
immediately and starts nothing.  (b) While a pass is in flight, a call
joins the same cached promise, leaving the state (and the pass count)
untouched, so at most one pass is in flight and each resource is fetched
once.  (c) Settlement, success or failure, clears the in-flight handle.
(d) With no cached promise and not loaded, a call starts exactly one fresh
pass and caches its promise.  (e) Hence a call after a failed pass starts a
fresh pass. -/
theorem loadEmbeddings_lifecycle (s : LoadState) (p : Nat) :
    (s.isLoaded = true → loadCall s = (s, .immediate)) ∧
    (s.isLoaded = false → s.loadingPromise = some p → loadCall s = (s, .joined p)) ∧
    (∀ b, (loadFinish s b).loadingPromise = none) ∧
    (s.isLoaded = false → s.loadingPromise = none →
      (loadCall s).2 = .started s.startedPasses ∧
      (loadCall s).1.startedPasses = s.startedPasses + 1 ∧
      (loadCall s).1.loadingPromise = some s.startedPasses) ∧
    (s.isLoaded = false →
      (loadCall (loadFinish s false)).2 = .started s.startedPasses) := by
  refine ⟨?_, ?_, ?_, ?_, ?_⟩
  · intro h
    simp [loadCall, h]
  · intro h hp
    simp [loadCall, h, hp]
  · intro b
    simp [loadFinish]
  · intro h hp
    simp [loadCall, h, hp]
  · intro h
    simp [loadCall, loadFinish, h]

/-! ### The query-level engine (`EmbeddingEngine` state and methods)

Vector components are exact reals; JS thrown exceptions are `Except.error`.
`Array.prototype.sort` (stable per ES2019) is modelled by the stable
`List.insertionSort`. -/

/-- The `EmbeddingEngine` instance state (part_001 variant, which also
keeps `normalizedEmbeddings`). -/
structure Engine where
  embeddings : List (List ℝ)
  normalizedEmbeddings : List (List ℝ)
  vocab : List (String × Nat)
  reverseVocab : List (Nat × String)
  metadata : Option Metadata
  isLoaded : Bool

/-- `token.replace(this.metadata.space_string, "")` with the marker given
directly. -/
def cleanTokenWith (ss tok : String) : String := jsReplaceOnce tok ss

/-- `cleanToken` from the source: `if (!this.metadata) return token;` then
the single replace. -/
def cleanToken (e : Engine) (tok : String) : String :=
  match e.metadata with
  | none => tok
  | some md => cleanTokenWith md.space_string tok

/-- `generateTokenVariants`: the JS `Set` of the original token, the
cleaned form, its lower / upper / capitalized casings, and the four
marker-prefixed forms, in insertion order.  (Callers only reach it with
`this.metadata` set, so the marker is passed directly.) -/
def generateTokenVariants (ss tok : String) : List String :=
  let cleaned := cleanTokenWith ss tok
  jsSetOfList [tok, cleaned, jsToLower cleaned, jsToUpper cleaned, jsCapitalize cleaned,
    ss ++ cleaned, ss ++ jsToLower cleaned, ss ++ jsToUpper cleaned, ss ++ jsCapitalize cleaned]

/-- `findBestTokenMatch`: collect the variants present in the vocabulary
with priority 0 for marker-prefixed ones and 1 otherwise, stable-sort by
priority, and return the first candidate's token (or `null`). -/
def findBestTokenMatch (ss : String) (vocab : List (String × Nat)) (word : String) :
    Option String :=
  let variants := generateTokenVariants ss word
  let candidates := variants.filterMap (fun v =>
    if (lookupVocab vocab v).isSome then
      some (v, if jsStartsWith v ss then (0 : Nat) else 1)
    else none)
  (List.insertionSort (fun a b => a.2 ≤ b.2) candidates).head?.map (·.1)

/-- `getEmbedding`: throws when not loaded; direct vocabulary lookup, then
best-match resolution; `null`/`undefined` results are `none`.  An id beyond
the embeddings array yields JS `undefined`, hence `none`.  The
`metadata = none` branch is unreachable once loaded (JS would throw a
`TypeError` reading `space_string` of `null` inside `findBestTokenMatch`);
it is modelled as that error. -/
def getEmbedding (e : Engine) (tok : String) : Except String (Option (List ℝ)) :=
  if e.isLoaded = false then .error "Embeddings not loaded yet"
  else
    match lookupVocab e.vocab tok with
    | some id => .ok e.embeddings[id]?
    | none =>
        match e.metadata with
        | none => .error "TypeError"
        | some md =>
            match findBestTokenMatch md.space_string e.vocab tok with
            | some best => .ok ((lookupVocab e.vocab best).bind (fun id => e.embeddings[id]?))
            | none => .ok none

/-! ### Vector arithmetic (exact-real model of the float operations) -/

/-- The loop of `dotProduct` (and of the dot-product part of
`cosineSimilarity`). -/
noncomputable def dotProduct (a b : List ℝ) : ℝ :=
  ((a.zip b).map (fun p => p.1 * p.2)).sum

/-- The accumulated `norm` of `normalizeVector` before the square root. -/
noncomputable def sumSquares (a : List ℝ) : ℝ := (a.map (fun x => x * x)).sum

/-- `Math.sqrt` of the accumulated sum of squares. -/
noncomputable def vecNorm (a : List ℝ) : ℝ := Real.sqrt (sumSquares a)

/-- `normalizeVector`: the zero vector is returned unchanged, any other
vector is divided componentwise by its Euclidean norm. -/
noncomputable def normalizeVector (a : List ℝ) : List ℝ :=
  if vecNorm a = 0 then a else a.map (fun x => x / vecNorm a)

/-- `dotProduct` with its length guard (`throw` modelled as `error`). -/
noncomputable def dotProductE (a b : List ℝ) : Except String ℝ :=
  if a.length ≠ b.length then .error "Vectors must have same length"
  else .ok (dotProduct a b)

/-- The arithmetic of `cosineSimilarity` after its length guard: 0 when
either operand has zero norm, else the dot product over the product of
norms. -/
noncomputable def cosineSimilarity (a b : List ℝ) : ℝ :=
  if vecNorm a = 0 ∨ vecNorm b = 0 then 0
  else dotProduct a b / (vecNorm a * vecNorm b)

/-- `cosineSimilarity` with its length guard. -/
noncomputable def cosineSimilarityE (a b : List ℝ) : Except String ℝ :=
  if a.length ≠ b.length then .error "Vectors must have same length"
  else .ok (cosineSimilarity a b)

/-- `addVectors` with its length guard. -/
noncomputable def addVectors (a b : List ℝ) : Except String (List ℝ) :=
  if a.length ≠ b.length then .error "Vectors must have same length"
  else .ok ((a.zip b).map (fun p => p.1 + p.2))

/-- `subtractVectors` with its length guard. -/
noncomputable def subtractVectors (a b : List ℝ) : Except String (List ℝ) :=
  if a.length ≠ b.length then .error "Vectors must have same length"
  else .ok ((a.zip b).map (fun p => p.1 - p.2))

/-! ### `performAnalogy` -/

/-- The similarity scan of `performAnalogy`: walk the vocabulary entries in
order, skip tokens in the exclusion set, and score the rest by dot product
with the normalized target.  A missing normalized row (`undefined`) makes
the JS `dotProduct` throw a `TypeError`. -/
noncomputable def scanSimilarities (excl : List String) (ntarget : List ℝ)
    (nembs : List (List ℝ)) : List (String × Nat) → Except String (List (String × ℝ))
  | [] => .ok []
  | (tok, id) :: rest =>
      if tok ∈ excl then scanSimilarities excl ntarget nembs rest
      else
        match nembs[id]? with
        | none => .error "TypeError"
        | some ne =>
            match dotProductE ntarget ne with
            | .error msg => .error msg
            | .ok s =>
                match scanSimilarities excl ntarget nembs rest with
                | .error msg => .error msg
                | .ok tl => .ok ((tok, s) :: tl)

/-- The value `performAnalogy` returns: an error object naming the missing
inputs, or the ranked results plus the normalized target vector. -/
inductive AnalogyResult where
  | missing (missingTokens : List String)
  | success (results : List (String × ℝ)) (targetVector : List ℝ)

/-- The comparator `(a, b) => b.similarity - a.similarity` as a non-strict
relation: descending similarity, ties stable. -/
noncomputable def simDescLE (x y : String × ℝ) : Bool := decide (y.2 ≤ x.2)

/-- The input-variant exclusion set of `performAnalogy` (empty in the
unreachable metadata-less state). -/
def analogyExclusionSet (e : Engine) (a b c : String) : List String :=
  match e.metadata with
  | none => []
  | some md =>
      jsSetOfList (generateTokenVariants md.space_string a ++
        generateTokenVariants md.space_string b ++
        generateTokenVariants md.space_string c)

/-- `performAnalogy(tokenA, tokenB, tokenC, topK)` from the part_001
variant: resolve the three inputs, report the missing ones, else score the
non-excluded vocabulary by dot product against the normalized target
`C + (B - A)` and return the top K. -/
noncomputable def performAnalogy (e : Engine) (a b c : String) (k : Nat) :
    Except String AnalogyResult :=
  match getEmbedding e a, getEmbedding e b, getEmbedding e c with
  | .error msg, _, _ => .error msg
  | _, .error msg, _ => .error msg
  | _, _, .error msg => .error msg
  | .ok ea, .ok eb, .ok ec =>
      match ea, eb, ec with
      | some va, some vb, some vc =>
          match e.metadata with
          | none => .error "TypeError"
          | some _ =>
              match subtractVectors vb va with
              | .error msg => .error msg
              | .ok diff =>
                  match addVectors vc diff with
                  | .error msg => .error msg
                  | .ok target =>
                      match scanSimilarities (analogyExclusionSet e a b c)
                          (normalizeVector target) e.normalizedEmbeddings e.vocab with
                      | .error msg => .error msg
                      | .ok sims =>
                          .ok (.success
                            ((List.insertionSort (fun x y => simDescLE x y = true) sims).take k)
                            (normalizeVector target))
      | _, _, _ =>
          .ok (.missing ((if ea.isNone then [a] else []) ++
            (if eb.isNone then [b] else []) ++ (if ec.isNone then [c] else [])))

/-! ### `getTokensWithPrefix` (the Autocomplete Ranker, part_001 variant) -/

/-- One autocomplete suggestion: the raw token, its display form
(`cleanToken || token`), and the computed priority. -/
structure Suggestion where
  token : String
  display : String
  priority : Nat
deriving DecidableEq, Repr

/-- The autocomplete sort comparator
`(a, b) => priority, then display.length, then display.localeCompare` as a
non-strict relation; `localeCompare` is modelled as code-point comparison. -/
def suggestionLE (a b : Suggestion) : Bool :=
  if a.priority ≠ b.priority then decide (a.priority < b.priority)
  else if a.display.length ≠ b.display.length then
    decide (a.display.length < b.display.length)
  else stringLE a.display b.display

/-- `getTokensWithPrefix(prefix, maxResults)` from the part_001 variant:
empty result unless loaded and the prefix is nonempty; one pass over the
vocabulary keys collecting matches into a `Map` keyed by the lowercased
display form (better priority replaces in place), then a stable sort and
truncation.  (The `metadata = none` branch is unreachable when loaded.) -/
def getTokensWithPrefix (e : Engine) (pfx : String) (maxResults : Nat) : List Suggestion :=
  if e.isLoaded = false ∨ pfx = "" then []
  else
    match e.metadata with
    | none => []
    | some md =>
        let normalizedPrefix := jsToLower pfx
        let spaceString := md.space_string
        let step : List (String × Suggestion) → String → List (String × Suggestion) :=
          fun m tok =>
            let cleanTok := cleanTokenWith spaceString tok
            let cleanLower := jsToLower cleanTok
            if jsStartsWith cleanLower normalizedPrefix
                || jsStartsWith (jsToLower tok) normalizedPrefix
                || jsStartsWith (jsToLower tok) (spaceString ++ normalizedPrefix) then
              let hasSpacePrefix := jsStartsWith tok spaceString
              let base : Nat := if hasSpacePrefix then 0 else 10
              let priority := base +
                (if cleanTok = pfx then 0
                 else if jsStartsWith cleanTok pfx then 1
                 else if cleanLower = normalizedPrefix then 2
                 else 3)
              let entry : Suggestion := ⟨tok, if cleanTok = "" then tok else cleanTok, priority⟩
              match jsMapGet m cleanLower with
              | none => jsMapSet m cleanLower entry
              | some old => if old.priority > priority then jsMapSet m cleanLower entry else m
            else m
        let ms := e.vocab.foldl (fun m p => step m p.1) []
        (List.insertionSort (fun a b => suggestionLE a b = true) (ms.map (·.2))).take maxResults

/-! ### Claims about autocomplete readiness and ranking -/

/-- The engine state after `_doLoadEmbeddings` has parsed the metadata
(phase 1: `metadata`, `vocab`, `reverseVocab` populated) but before the
vector payload is decoded and normalized: `embeddings` still empty and
`isLoaded` still false. -/
def phase1Engine : Engine :=
  { embeddings := [], normalizedEmbeddings := [],
    vocab := [("run", 0)],
    reverseVocab := [(0, "run")],
    metadata := some ⟨[("run", 0)], 1, 2, "float32", "▁"⟩,
    isLoaded := false }

/-- C1 counterexample: in a phase-1-complete state (metadata parsed,
vocabulary populated, vectors not yet decoded, `isLoaded` still false),
`getTokensWithPrefix` returns the empty list even for a non-empty prefix
matching a vocabulary token — not the ranked suggestion list. -/
theorem phase1_autocomplete_empty :
    phase1Engine.metadata.isSome = true ∧ phase1Engine.isLoaded = false ∧
    lookupVocab phase1Engine.vocab "run" = some 0 ∧
    getTokensWithPrefix phase1Engine "run" 10 = [] := by
  decide

/-- C1 amended: autocomplete availability is gated on the single `isLoaded`
flag, which `_doLoadEmbeddings` sets only after all vectors are decoded and
normalized.  In every state with `isLoaded = false` — the
metadata-parsed-but-vectors-pending states included — `getTokensWithPrefix`
returns the empty list for every prefix, so autocomplete does depend on
phase-2 (vector) readiness. -/
theorem autocomplete_needs_isLoaded (e : Engine) (pfx : String) (k : Nat)
    (h : e.isLoaded = false) : getTokensWithPrefix e pfx k = [] := by
  simp [getTokensWithPrefix, h]

/-- Witness for `autocomplete_needs_isLoaded` at the phase-1 state. -/
theorem autocomplete_needs_isLoaded_witness :
    phase1Engine.isLoaded = false ∧ getTokensWithPrefix phase1Engine "ru" 5 = [] :=
  ⟨rfl, autocomplete_needs_isLoaded phase1Engine "ru" 5 rfl⟩

/-- The loaded engine with the vocabulary of the autocomplete-ordering
scenario, `{"▁Run": 0, "run": 1, "running": 2}` and marker `▁`.
(`getTokensWithPrefix` never reads the vector fields.) -/
def runEngine : Engine :=
  { embeddings := [], normalizedEmbeddings := [],
    vocab := [("▁Run", 0), ("run", 1), ("running", 2)],
    reverseVocab := [(0, "▁Run"), (1, "run"), (2, "running")],
    metadata := some ⟨[("▁Run", 0), ("run", 1), ("running", 2)], 3, 4, "bf16", "▁"⟩,
    isLoaded := true }

/-- C2 counterexample: for that vocabulary and prefix "run" the returned
list has just two entries, and the bare token "run" is not among them —
it is deduplicated away (its lowercase display form "run" collides with
"▁Run", whose priority 2 beats its priority 10), so the three tokens do
not all appear. -/
theorem autocomplete_run_dedup_drops_bare_run :
    (getTokensWithPrefix runEngine "run" 10).length = 2 ∧
    "run" ∉ (getTokensWithPrefix runEngine "run" 10).map Suggestion.token := by
  decide

/-- C2 amended: for vocabulary `{"▁Run": 0, "run": 1, "running": 2}`
(marker `▁`) and prefix "run", `getTokensWithPrefix` returns exactly two
suggestions: the boundary-prefixed "▁Run" (display "Run", priority 2)
first and "running" (priority 11) second; the bare "run" is removed by the
lowercase-display deduplication, where "▁Run" wins with the better
priority. -/
theorem autocomplete_run_ordering :
    (getTokensWithPrefix runEngine "run" 10).map
        (fun s => (s.token, s.display, s.priority)) =
      [("▁Run", "Run", 2), ("running", "running", 11)] := by
  decide

/-! ### Path equivalence: normalized dot product vs cosine similarity -/

theorem sumSquares_nonneg (a : List ℝ) : 0 ≤ sumSquares a := by
  apply List.sum_nonneg
  intro x hx
  obtain ⟨y, _, rfl⟩ := List.mem_map.mp hx
  exact mul_self_nonneg y

theorem vecNorm_eq_zero_iff (a : List ℝ) : vecNorm a = 0 ↔ sumSquares a = 0 := by
  rw [vecNorm, Real.sqrt_eq_zero (sumSquares_nonneg a)]

theorem all_zero_of_sumSquares_eq_zero :
    ∀ (a : List ℝ), sumSquares a = 0 → ∀ x ∈ a, x = 0 := by
  intro a
  induction a with
  | nil => simp
  | cons x xs ih =>
      intro h y hy
      have h1 : 0 ≤ x * x := mul_self_nonneg x
      have h2 : 0 ≤ sumSquares xs := sumSquares_nonneg xs
      have hsum : x * x + sumSquares xs = 0 := by
        simpa [sumSquares] using h
      rcases List.mem_cons.mp hy with rfl | hy
      · exact mul_self_eq_zero.mp (by linarith)
      · exact ih (by linarith) y hy

theorem dotProduct_zero_left :
    ∀ (a b : List ℝ), (∀ x ∈ a, x = 0) → dotProduct a b = 0
  | [], _, _ => by simp [dotProduct]
  | _ :: _, [], _ => by simp [dotProduct]
  | x :: xs, y :: ys, h => by
      simp only [dotProduct, List.zip_cons_cons, List.map_cons, List.sum_cons]
      rw [h x (List.mem_cons_self _ _), zero_mul, zero_add]
      exact dotProduct_zero_left xs ys (fun z hz => h z (List.mem_cons_of_mem _ hz))

theorem dotProduct_zero_right :
    ∀ (a b : List ℝ), (∀ x ∈ b, x = 0) → dotProduct a b = 0
  | [], _, _ => by simp [dotProduct]
  | _ :: _, [], _ => by simp [dotProduct]
  | x :: xs, y :: ys, h => by
      simp only [dotProduct, List.zip_cons_cons, List.map_cons, List.sum_cons]
      rw [h y (List.mem_cons_self _ _), mul_zero, zero_add]
      exact dotProduct_zero_right xs ys (fun z hz => h z (List.mem_cons_of_mem _ hz))

theorem dotProduct_map_div :
    ∀ (a b : List ℝ) (c d : ℝ),
      dotProduct (a.map (fun x => x / c)) (b.map (fun x => x / d))
        = dotProduct a b / (c * d)
  | [], _, _, _ => by simp [dotProduct]
  | _ :: _, [], _, _ => by simp [dotProduct]
  | x :: xs, y :: ys, c, d => by
      simp only [List.map_cons, dotProduct, List.zip_cons_cons, List.sum_cons]
      have ihr := dotProduct_map_div xs ys c d
      simp only [dotProduct] at ihr
      rw [ihr]
      ring

theorem normalizeVector_length (a : List ℝ) :
    (normalizeVector a).length = a.length := by
  unfold normalizeVector
  split <;> simp

/-- C8: under exact real arithmetic, the normalized-dot-product path and
the unnormalized cosine-similarity path agree on every pair of
equal-length vectors, zero vectors included (both give 0 there), so the
two scans assign equal similarity values and produce the same rankings. -/
theorem dot_normalized_eq_cosine (x y : List ℝ) (h : x.length = y.length) :
    dotProductE (normalizeVector x) (normalizeVector y) = cosineSimilarityE x y ∧
    dotProduct (normalizeVector x) (normalizeVector y) = cosineSimilarity x y := by
  have hmain : dotProduct (normalizeVector x) (normalizeVector y) = cosineSimilarity x y := by
    by_cases hx : vecNorm x = 0
    · have hx0 : ∀ v ∈ x, v = 0 :=
        all_zero_of_sumSquares_eq_zero x ((vecNorm_eq_zero_iff x).mp hx)
      have hnx : normalizeVector x = x := by simp [normalizeVector, hx]
      rw [hnx, cosineSimilarity, if_pos (Or.inl hx)]
      exact dotProduct_zero_left x (normalizeVector y) hx0
    · by_cases hy : vecNorm y = 0
      · have hy0 : ∀ v ∈ y, v = 0 :=
          all_zero_of_sumSquares_eq_zero y ((vecNorm_eq_zero_iff y).mp hy)
        have hny : normalizeVector y = y := by simp [normalizeVector, hy]
        rw [hny, cosineSimilarity, if_pos (Or.inr hy)]
        exact dotProduct_zero_right (normalizeVector x) y hy0
      · have hnx : normalizeVector x = x.map (fun v => v / vecNorm x) := by
          simp [normalizeVector, hx]
        have hny : normalizeVector y = y.map (fun v => v / vecNorm y) := by
          simp [normalizeVector, hy]
        rw [hnx, hny, dotProduct_map_div, cosineSimilarity]
        rw [if_neg (by push_neg; exact ⟨hx, hy⟩)]
  refine ⟨?_, hmain⟩
  have hlx := normalizeVector_length x
  have hly := normalizeVector_length y
  rw [dotProductE, cosineSimilarityE, if_neg (by omega), if_neg (by omega)]
  rw [hmain]

/-- Witness for `dot_normalized_eq_cosine` at the concrete pair
`[3, 4]`, `[8, 6]`. -/
theorem dot_normalized_eq_cosine_witness :
    ([3, 4] : List ℝ).length = ([8, 6] : List ℝ).length ∧
    dotProductE (normalizeVector [3, 4]) (normalizeVector [8, 6]) =
      cosineSimilarityE ([3, 4] : List ℝ) [8, 6] :=
  ⟨rfl, (dot_normalized_eq_cosine [3, 4] [8, 6] rfl).1⟩


/-! ### Analogy exclusion (claim C6) -/

theorem mem_jsSetAdd (x s : String) (l : List String) :
    x ∈ jsSetAdd l s ↔ x ∈ l ∨ x = s := by
  unfold jsSetAdd
  split
  · constructor
    · exact Or.inl
    · rintro (h | rfl)
      · exact h
      · assumption
  · simp

theorem mem_foldl_jsSetAdd :
    ∀ (l acc : List String) (x : String),
      x ∈ l.foldl jsSetAdd acc ↔ x ∈ acc ∨ x ∈ l
  | [], acc, x => by simp
  | s :: rest, acc, x => by
      simp only [List.foldl_cons, mem_foldl_jsSetAdd rest (jsSetAdd acc s) x,
        mem_jsSetAdd, List.mem_cons]
      tauto

theorem mem_jsSetOfList (x : String) (l : List String) :
    x ∈ jsSetOfList l ↔ x ∈ l := by
  unfold jsSetOfList
  rw [mem_foldl_jsSetAdd]
  simp

theorem self_mem_generateTokenVariants (ss tok : String) :
    tok ∈ generateTokenVariants ss tok := by
  unfold generateTokenVariants
  rw [mem_jsSetOfList]
  simp

/-- The three input tokens belong to the exclusion set whenever the
metadata is present. -/
theorem inputs_mem_analogyExclusionSet (e : Engine) (a b c : String)
    (hmd : e.metadata.isSome = true) :
    a ∈ analogyExclusionSet e a b c ∧ b ∈ analogyExclusionSet e a b c ∧
      c ∈ analogyExclusionSet e a b c := by
  obtain ⟨md, hmd2⟩ := Option.isSome_iff_exists.mp hmd
  simp only [analogyExclusionSet, hmd2, mem_jsSetOfList, List.mem_append]
  exact ⟨Or.inl (Or.inl (self_mem_generateTokenVariants _ _)),
    Or.inl (Or.inr (self_mem_generateTokenVariants _ _)),
    Or.inr (self_mem_generateTokenVariants _ _)⟩

/-- Every scored entry of the similarity scan carries a token outside the
exclusion set. -/
theorem scanSimilarities_excludes (excl : List String) (nt : List ℝ)
    (nembs : List (List ℝ)) :
    ∀ (vocab : List (String × Nat)) (sims : List (String × ℝ)),
      scanSimilarities excl nt nembs vocab = .ok sims → ∀ p ∈ sims, p.1 ∉ excl := by
  intro vocab
  induction vocab with
  | nil =>
      intro sims h p hp
      simp only [scanSimilarities] at h
      cases h
      cases hp
  | cons q rest ih =>
      intro sims h p hp
      obtain ⟨tok, id⟩ := q
      simp only [scanSimilarities] at h
      by_cases hmem : tok ∈ excl
      · rw [if_pos hmem] at h
        exact ih sims h p hp
      · rw [if_neg hmem] at h
        split at h
        · cases h
        · split at h
          · cases h
          · split at h
            · cases h
            · cases h
              rename_i ne hne s hdot tl hrest
              rcases List.mem_cons.mp hp with rfl | hp
              · exact hmem
              · exact ih tl hrest p hp

/-- The token lists of the two result shapes of `performAnalogy`: the
ranked tokens of a success, nothing otherwise. -/
def resultTokens : Except String AnalogyResult → List String
  | .ok (.success rs _) => rs.map (·.1)
  | _ => []

/-- Inversion of a successful `performAnalogy`: the metadata was present
and the ranked results are a truncation of the stable-sorted output of the
similarity scan run against the input-variant exclusion set. -/
theorem performAnalogy_success_inv (e : Engine) (a b c : String) (k : Nat)
    (rs : List (String × ℝ)) (nt : List ℝ)
    (h : performAnalogy e a b c k = .ok (.success rs nt)) :
    e.metadata.isSome = true ∧
    ∃ sims, scanSimilarities (analogyExclusionSet e a b c) nt
        e.normalizedEmbeddings e.vocab = .ok sims ∧
      rs = (List.insertionSort (fun x y => simDescLE x y = true) sims).take k := by
  unfold performAnalogy at h
  split at h
  · cases h
  · cases h
  · cases h
  · split at h
    · split at h
      · cases h
      · rename_i md hmd
        split at h
        · cases h
        · split at h
          · cases h
          · split at h
            · cases h
            · rename_i sims hscan
              cases h
              exact ⟨by simp [hmd], sims, hscan, rfl⟩
    · cases h

/-- C6: whatever the engine state, the inputs and the topK, no token in the
results list of `performAnalogy` equals tokenA, tokenB or tokenC, nor any
member of the exclusion set (the union of the three inputs' variant sets,
with boundary-stripped, lowercase, uppercase, capitalized and
marker-prefixed forms): excluded tokens are skipped by the scan, and the
result is a truncation of a permutation of the scan's output. -/
theorem performAnalogy_excludes_inputs (e : Engine) (a b c : String) (k : Nat) :
    (resultTokens (performAnalogy e a b c k)).Forall
      (fun t => t ∉ analogyExclusionSet e a b c ∧ t ≠ a ∧ t ≠ b ∧ t ≠ c) := by
  rw [List.forall_iff_forall_mem]
  intro t ht
  cases hres : performAnalogy e a b c k with
  | error m => rw [hres] at ht; cases ht
  | ok r =>
      cases r with
      | missing l => rw [hres] at ht; cases ht
      | success rs nt =>
          rw [hres] at ht
          obtain ⟨hmdsome, sims, hscan, hrs⟩ :=
            performAnalogy_success_inv e a b c k rs nt hres
          simp only [resultTokens] at ht
          obtain ⟨p, hp, rfl⟩ := List.mem_map.mp ht
          have hp2 : p ∈ List.insertionSort (fun x y => simDescLE x y = true) sims :=
            List.take_subset _ _ (hrs ▸ hp)
          have hp3 : p ∈ sims := (List.perm_insertionSort _ _).mem_iff.mp hp2
          have hnot : p.1 ∉ analogyExclusionSet e a b c :=
            scanSimilarities_excludes _ _ _ _ sims hscan p hp3
          obtain ⟨hina, hinb, hinc⟩ := inputs_mem_analogyExclusionSet e a b c hmdsome
          refine ⟨hnot, ?_, ?_, ?_⟩
          · intro hEq
            rw [hEq] at hnot
            exact hnot hina
          · intro hEq
            rw [hEq] at hnot
            exact hnot hinb
          · intro hEq
            rw [hEq] at hnot
            exact hnot hinc

/-! ### Missing-token reporting (claim C5) -/

/-- Whether `getEmbedding` resolves a token to a vector (directly or via a
variant): the truthiness test `!embA` of `performAnalogy`. -/
def tokenResolves (e : Engine) (t : String) : Bool :=
  match getEmbedding e t with
  | .ok (some _) => true
  | _ => false

/-- The inputs of `performAnalogy` that fail to resolve, in (A, B, C)
order, as the original input strings. -/
def unresolvedInputs (e : Engine) (a b c : String) : List String :=
  [a, b, c].filter (fun t => ! tokenResolves e t)

theorem lookupVocab_mem {v : List (String × Nat)} {t : String} {i : Nat}
    (h : lookupVocab v t = some i) : (t, i) ∈ v := by
  unfold lookupVocab at h
  cases hf : v.find? (fun p => p.1 == t) with
  | none => rw [hf] at h; cases h
  | some p =>
      rw [hf] at h
      have hm := List.mem_of_find?_eq_some hf
      have hp := List.find?_some hf
      obtain ⟨x, y⟩ := p
      simp only [beq_iff_eq] at hp
      simp only [Option.map_some'] at h
      cases h
      rw [hp] at hm
      exact hm

/-- `getEmbedding` on a loaded engine never throws: it returns the direct
hit, the best-variant hit, or `none`. -/
theorem getEmbedding_eq_of_loaded (e : Engine) (md : Metadata) (t : String)
    (hload : e.isLoaded = true) (hmd : e.metadata = some md) :
    getEmbedding e t =
      .ok (match lookupVocab e.vocab t with
        | some id => e.embeddings[id]?
        | none =>
            match findBestTokenMatch md.space_string e.vocab t with
            | some best => (lookupVocab e.vocab best).bind (fun id => e.embeddings[id]?)
            | none => none) := by
  unfold getEmbedding
  rw [hload]
  simp only [Bool.true_eq_false, if_false]
  cases hl : lookupVocab e.vocab t with
  | some id => simp
  | none =>
      rw [hmd]
      cases hb : findBestTokenMatch md.space_string e.vocab t <;> simp [hb]

theorem tokenResolves_eq_isSome (e : Engine) (t : String) (r : Option (List ℝ))
    (h : getEmbedding e t = .ok r) : tokenResolves e t = r.isSome := by
  unfold tokenResolves
  rw [h]
  cases r <;> simp

theorem insertionSort_eq_nil_iff {α : Type} (r : α → α → Prop) [DecidableRel r]
    (l : List α) : List.insertionSort r l = [] ↔ l = [] := by
  constructor
  · intro h
    have hlen := List.length_insertionSort r l
    rw [h] at hlen
    simpa using List.length_eq_zero.mp hlen.symm
  · rintro rfl
    rfl

/-- A best match returned by `findBestTokenMatch` is a variant of the word
that is present in the vocabulary. -/
theorem findBestTokenMatch_some_spec (ss : String) (vocab : List (String × Nat))
    (word best : String) (h : findBestTokenMatch ss vocab word = some best) :
    best ∈ generateTokenVariants ss word ∧ (lookupVocab vocab best).isSome = true := by
  unfold findBestTokenMatch at h
  rw [Option.map_eq_some'] at h
  obtain ⟨p, hp, hb⟩ := h
  have hpmem : p ∈ List.insertionSort (fun a b => a.2 ≤ b.2)
      ((generateTokenVariants ss word).filterMap (fun v =>
        if (lookupVocab vocab v).isSome then
          some (v, if jsStartsWith v ss then (0 : Nat) else 1)
        else none)) := List.mem_of_mem_head? hp
  have hpc : p ∈ (generateTokenVariants ss word).filterMap (fun v =>
      if (lookupVocab vocab v).isSome then
        some (v, if jsStartsWith v ss then (0 : Nat) else 1)
      else none) := (List.perm_insertionSort _ _).mem_iff.mp hpmem
  obtain ⟨v, hv, hfv⟩ := List.mem_filterMap.mp hpc
  by_cases hs : (lookupVocab vocab v).isSome = true
  · rw [if_pos hs] at hfv
    cases hfv
    rw [← hb]
    exact ⟨hv, hs⟩
  · rw [if_neg hs] at hfv
    cases hfv

/-- `findBestTokenMatch` returns `null` exactly when no variant of the
word is in the vocabulary. -/
theorem findBestTokenMatch_none_iff (ss : String) (vocab : List (String × Nat))
    (word : String) :
    findBestTokenMatch ss vocab word = none ↔
      ∀ v ∈ generateTokenVariants ss word, lookupVocab vocab v = none := by
  unfold findBestTokenMatch
  rw [Option.map_eq_none', List.head?_eq_none_iff, insertionSort_eq_nil_iff,
    List.filterMap_eq_nil_iff]
  constructor
  · intro h v hv
    have hfv := h v hv
    by_cases hs : (lookupVocab vocab v).isSome = true
    · rw [if_pos hs] at hfv
      cases hfv
    · exact Option.not_isSome_iff_eq_none.mp (by simpa using hs)
  · intro h v hv
    simp [h v hv]

theorem getEmbedding_direct (e : Engine) (md : Metadata) (t : String) (id : Nat)
    (hload : e.isLoaded = true) (hmd : e.metadata = some md)
    (hl : lookupVocab e.vocab t = some id) :
    getEmbedding e t = .ok e.embeddings[id]? := by
  rw [getEmbedding_eq_of_loaded e md t hload hmd, hl]

theorem getEmbedding_via_best (e : Engine) (md : Metadata) (t best : String)
    (hload : e.isLoaded = true) (hmd : e.metadata = some md)
    (hl : lookupVocab e.vocab t = none)
    (hb : findBestTokenMatch md.space_string e.vocab t = some best) :
    getEmbedding e t = .ok ((lookupVocab e.vocab best).bind (fun id => e.embeddings[id]?)) := by
  rw [getEmbedding_eq_of_loaded e md t hload hmd, hl, hb]

theorem getEmbedding_unresolved (e : Engine) (md : Metadata) (t : String)
    (hload : e.isLoaded = true) (hmd : e.metadata = some md)
    (hl : lookupVocab e.vocab t = none)
    (hb : findBestTokenMatch md.space_string e.vocab t = none) :
    getEmbedding e t = .ok none := by
  rw [getEmbedding_eq_of_loaded e md t hload hmd, hl, hb]

/-- On a well-formed loaded store (every vocab id indexes a vector), an
input fails to resolve exactly when every one of its variant forms is
absent from the vocabulary. -/
theorem tokenResolves_false_iff (e : Engine) (md : Metadata) (t : String)
    (hload : e.isLoaded = true) (hmd : e.metadata = some md)
    (hwf : ∀ p ∈ e.vocab, p.2 < e.embeddings.length) :
    tokenResolves e t = false ↔
      ∀ v ∈ generateTokenVariants md.space_string t, lookupVocab e.vocab v = none := by
  cases hl : lookupVocab e.vocab t with
  | some id =>
      have hlt : id < e.embeddings.length := hwf (t, id) (lookupVocab_mem hl)
      rw [tokenResolves_eq_isSome e t _ (getEmbedding_direct e md t id hload hmd hl),
        List.getElem?_eq_getElem hlt]
      constructor
      · intro h
        simp at h
      · intro hall
        have hself := hall t (self_mem_generateTokenVariants _ _)
        rw [hl] at hself
        cases hself
  | none =>
      cases hb : findBestTokenMatch md.space_string e.vocab t with
      | some best =>
          obtain ⟨hbv, hbs⟩ := findBestTokenMatch_some_spec _ _ _ _ hb
          obtain ⟨idb, hidb⟩ := Option.isSome_iff_exists.mp hbs
          have hlt : idb < e.embeddings.length := hwf (best, idb) (lookupVocab_mem hidb)
          rw [tokenResolves_eq_isSome e t _ (getEmbedding_via_best e md t best hload hmd hl hb),
            hidb, Option.some_bind, List.getElem?_eq_getElem hlt]
          constructor
          · intro h
            simp at h
          · intro hall
            have hbest := hall best hbv
            rw [hidb] at hbest
            cases hbest
      | none =>
          rw [tokenResolves_eq_isSome e t _ (getEmbedding_unresolved e md t hload hmd hl hb)]
          constructor
          · intro _
            exact (findBestTokenMatch_none_iff _ _ _).mp hb
          · intro _
            rfl

/-- C5 amended: on a loaded, well-formed store, whenever at least one input
is unresolvable, `performAnalogy` returns an error result whose
missing-token list is exactly the unresolved inputs, order-preserving over
(A, B, C) and containing only the missing ones — each as the ORIGINAL
input string as passed (not its display-cleaned form); and an input is
unresolved exactly when every one of its variant forms is absent from the
vocabulary. -/
theorem performAnalogy_missing_reports (e : Engine) (md : Metadata)
    (a b c : String) (k : Nat)
    (hload : e.isLoaded = true) (hmd : e.metadata = some md)
    (hwf : ∀ p ∈ e.vocab, p.2 < e.embeddings.length)
    (hmiss : unresolvedInputs e a b c ≠ []) :
    performAnalogy e a b c k = .ok (.missing (unresolvedInputs e a b c)) ∧
    ∀ t, tokenResolves e t = false ↔
      ∀ v ∈ generateTokenVariants md.space_string t, lookupVocab e.vocab v = none := by
  refine ⟨?_, fun t => tokenResolves_false_iff e md t hload hmd hwf⟩
  obtain ⟨ra, hga⟩ : ∃ r, getEmbedding e a = .ok r :=
    ⟨_, getEmbedding_eq_of_loaded e md a hload hmd⟩
  obtain ⟨rb, hgb⟩ : ∃ r, getEmbedding e b = .ok r :=
    ⟨_, getEmbedding_eq_of_loaded e md b hload hmd⟩
  obtain ⟨rc, hgc⟩ : ∃ r, getEmbedding e c = .ok r :=
    ⟨_, getEmbedding_eq_of_loaded e md c hload hmd⟩
  have hta := tokenResolves_eq_isSome e a ra hga
  have htb := tokenResolves_eq_isSome e b rb hgb
  have htc := tokenResolves_eq_isSome e c rc hgc
  unfold performAnalogy
  rw [hga, hgb, hgc]
  rcases ra with _ | va <;> rcases rb with _ | vb <;> rcases rc with _ | vc
  · simp [unresolvedInputs, hta, htb, htc]
  · simp [unresolvedInputs, hta, htb, htc]
  · simp [unresolvedInputs, hta, htb, htc]
  · simp [unresolvedInputs, hta, htb, htc]
  · simp [unresolvedInputs, hta, htb, htc]
  · simp [unresolvedInputs, hta, htb, htc]
  · simp [unresolvedInputs, hta, htb, htc]
  · exact absurd (by simp [unresolvedInputs, hta, htb, htc]) hmiss

/-- The metadata of the small loaded store used for the concrete
missing-token scenario. -/
def mdLoaded : Metadata := ⟨[("▁aa", 0), ("▁bb", 1)], 2, 2, "float32", "▁"⟩

/-- A loaded two-token store: vocabulary `{"▁aa": 0, "▁bb": 1}`, two
2-dimensional vectors. -/
noncomputable def loadedEngine : Engine :=
  { embeddings := [[1, 0], [0, 1]],
    normalizedEmbeddings := [[1, 0], [0, 1]],
    vocab := [("▁aa", 0), ("▁bb", 1)],
    reverseVocab := [(0, "▁aa"), (1, "▁bb")],
    metadata := some mdLoaded,
    isLoaded := true }

/-- C5 counterexample: querying the loaded store with the unresolvable
token "▁zz" (and two resolvable ones) yields the missing-token list
["▁zz"] — the raw input string carrying the boundary marker, which is not
the display-ready form "zz" the claim asserts. -/
theorem missing_tokens_are_raw_inputs_cex :
    performAnalogy loadedEngine "▁zz" "▁aa" "▁bb" 10 = .ok (.missing ["▁zz"]) ∧
    cleanToken loadedEngine "▁zz" = "zz" ∧ ("▁zz" : String) ≠ "zz" :=
  ⟨rfl, rfl, by decide⟩

/-- Witness for `performAnalogy_missing_reports` at the concrete loaded
store and inputs ("▁zz", "▁aa", "▁bb"). -/
theorem performAnalogy_missing_reports_witness :
    loadedEngine.isLoaded = true ∧
    loadedEngine.metadata = some mdLoaded ∧
    (∀ p ∈ loadedEngine.vocab, p.2 < loadedEngine.embeddings.length) ∧
    unresolvedInputs loadedEngine "▁zz" "▁aa" "▁bb" ≠ [] ∧
    performAnalogy loadedEngine "▁zz" "▁aa" "▁bb" 10 =
      .ok (.missing (unresolvedInputs loadedEngine "▁zz" "▁aa" "▁bb")) := by
  have hwf : ∀ p ∈ loadedEngine.vocab, p.2 < loadedEngine.embeddings.length := by
    intro p hp
    simp only [loadedEngine, List.mem_cons, List.not_mem_nil, or_false] at hp
    rcases hp with rfl | rfl <;> simp [loadedEngine]
  have hne : unresolvedInputs loadedEngine "▁zz" "▁aa" "▁bb" ≠ [] := by
    rw [show unresolvedInputs loadedEngine "▁zz" "▁aa" "▁bb" = ["▁zz"] from rfl]
    simp
  exact ⟨rfl, rfl, hwf, hne,
    (performAnalogy_missing_reports loadedEngine mdLoaded "▁zz" "▁aa" "▁bb" 10
      rfl rfl hwf hne).1⟩
